import Mathlib

/-!
Verification of the hierarchy builder, search, navigation and reference
resolution logic of the building-code viewer frontend.

Strings of the TypeScript source are modelled as `List Char`; JavaScript
`String.prototype.toLowerCase` is modelled by mapping `Char.toLower`
(adequate for the ASCII data the viewer handles, and length-preserving, which
the index arithmetic of the source relies on).  JavaScript `Set` objects of
node ids are modelled as `Finset Nat`.  Nullable / optional fields are
modelled as `Option`; JavaScript truthiness on numbers (`0`, `null` and
`undefined` are falsy) and strings (`""`, `null` and `undefined` are falsy)
is modelled explicitly where the source relies on it.
-/

/-- Lowercase a modelled string, as `s.toLowerCase()` does in the source. -/
def lowerStr (s : List Char) : List Char := s.map Char.toLower

/-- Whitespace test used by `String.prototype.trim`; the data handled by the
viewer only contains ASCII whitespace. -/
def isWs (c : Char) : Bool := c = ' ' || c = '\t' || c = '\n' || c = '\r'

/-- JavaScript `s.trim()`: strip leading and trailing whitespace. -/
def trimStr (s : List Char) : List Char :=
  ((s.dropWhile isWs).reverse.dropWhile isWs).reverse

/-- Index of the first occurrence of `pat` in `hay` (offset from the scan
start), scanning left to right. -/
def scanIdx (pat : List Char) : List Char → Option Nat
  | [] => if pat.isEmpty then some 0 else none
  | c :: rest =>
      if pat.isPrefixOf (c :: rest) then some 0
      else (scanIdx pat rest).map (· + 1)

/-- First index `i ≥ start` at which `pat` occurs in `hay`, or `none`:
JavaScript `hay.indexOf(pat, start)` restricted to `start ≤ hay.length`,
which is the only way the source calls it. -/
def idxOfFrom (hay pat : List Char) (start : Nat) : Option Nat :=
  (scanIdx pat (hay.drop start)).map (· + start)

/-- JavaScript `a.toLowerCase().includes(b.toLowerCase())` as used by the
search match test: case-insensitive substring containment. -/
def ciContains (s term : List Char) : Bool :=
  (idxOfFrom (lowerStr s) (lowerStr term) 0).isSome

/-- Flat content record, from `BuildingCodeItem` in `types/buildingCode.ts`.
The provenance / layout fields (`page_number`, `font_family`, `bbox`,
`y_coordinate`, …) are opaque to all of the logic verified here and are
omitted; `title`, `content_text` and `reference_code` are nullable in the
API payload, hence `Option`. -/
structure Item where
  id : Nat
  parent_id : Option Nat
  content_type : List Char
  title : Option (List Char)
  content_text : Option (List Char)
  reference_code : Option (List Char)
  sequence_order : Int
deriving DecidableEq

/-- Tree node, from `HierarchyNode extends BuildingCodeItem` with a
`children` array.  After `buildHierarchy` every node carries a (possibly
empty) children array, so `children` is not optional here. -/
inductive HNode where
  | node (item : Item) (children : List HNode)

/-- Payload record of a tree node. -/
def HNode.item : HNode → Item
  | .node it _ => it

/-- Children list of a tree node. -/
def HNode.children : HNode → List HNode
  | .node _ cs => cs

@[simp] theorem HNode.item_node (it : Item) (cs : List HNode) :
    (HNode.node it cs).item = it := rfl

@[simp] theorem HNode.children_node (it : Item) (cs : List HNode) :
    (HNode.node it cs).children = cs := rfl

mutual

def decEqH : (a b : HNode) → Decidable (a = b)
  | .node i1 c1, .node i2 c2 =>
    if h1 : i1 = i2 then
      match decEqListH c1 c2 with
      | isTrue h2 => isTrue (by rw [h1, h2])
      | isFalse h2 => isFalse fun h => by injection h with _ hc; exact h2 hc
    else isFalse fun h => by injection h with hi _; exact h1 hi

def decEqListH : (as bs : List HNode) → Decidable (as = bs)
  | [], [] => isTrue rfl
  | [], _ :: _ => isFalse fun h => by injection h
  | _ :: _, [] => isFalse fun h => by injection h
  | a :: as, b :: bs =>
    match decEqH a b with
    | isTrue h1 =>
      match decEqListH as bs with
      | isTrue h2 => isTrue (by rw [h1, h2])
      | isFalse h2 => isFalse fun h => by injection h with _ hc; exact h2 hc
    | isFalse h1 => isFalse fun h => by injection h with hi _; exact h1 hi

end

instance : DecidableEq HNode := decEqH

instance : DecidableEq (List HNode) := decEqListH

/-- Ids of a flat record list — the key set of the `Map` that
`buildHierarchy` builds with `map.set(item.id, …)`. -/
def idsOf (l : List Item) : List Nat := l.map Item.id

/-- Resolved structural parent of a record, following the test
`item.parent_id && map.has(item.parent_id)` in `buildHierarchy`
(`LibraryHome.tsx`): the parent id must be truthy (non-null and non-zero)
and must be the id of some record of the input. -/
def parentOf (l : List Item) (it : Item) : Option Nat :=
  match it.parent_id with
  | none => none
  | some p => if p ≠ 0 ∧ p ∈ idsOf l then some p else none

/-- Records that `buildHierarchy` pushes onto `roots`, in input order. -/
def rootItems (l : List Item) : List Item :=
  l.filter fun it => (parentOf l it).isNone

/-- Records that `buildHierarchy` pushes onto the children array of the node
with id `pid`, in input order (the second `forEach` walks `flatData` in
order). -/
def childItems (l : List Item) (pid : Nat) : List Item :=
  l.filter fun it => parentOf l it = some pid

/-- Comparison used by `sortChildren`'s comparator
`(a, b) => a.sequence_order - b.sequence_order`. -/
def seqLE (a b : HNode) : Prop :=
  a.item.sequence_order ≤ b.item.sequence_order

instance : DecidableRel seqLE := fun a b =>
  inferInstanceAs (Decidable (a.item.sequence_order ≤ b.item.sequence_order))

instance : IsTotal HNode seqLE := ⟨fun a b => Int.le_total _ _⟩

instance : IsTrans HNode seqLE := ⟨fun _ _ _ => Int.le_trans⟩

/-- Stable sort of a sibling array by ascending `sequence_order`.
`Array.prototype.sort` is specified to be stable, so it is modelled by a
stable insertion sort; records comparing equal keep their relative order. -/
def sortBySeq (ns : List HNode) : List HNode := ns.insertionSort seqLE

/-- Denotation of the `Map`-and-mutation construction of `buildHierarchy`
(`LibraryHome.tsx`): the node of record `it` carries, as children, the nodes
of the records whose parent resolves to `it.id` (in input order), recursively
built, then stably sorted by `sequence_order` as `sortChildren` does.  The
fuel argument bounds the recursion depth; `buildHierarchy` passes fuel
`l.length`, which (for duplicate-free ids) exceeds the depth of every node
reachable from a root, so no reachable node is ever truncated — exactly the
set of nodes the JavaScript construction makes reachable from `roots`. -/
def buildNode (l : List Item) : Nat → Item → HNode
  | 0, it => .node it []
  | f + 1, it =>
      .node it (sortBySeq ((childItems l it.id).map (buildNode l f)))

/-- Model of `buildHierarchy` (`LibraryHome.tsx`): records with no resolved
parent become roots, every other record hangs below its parent, and every
sibling list (the roots included) is stably sorted by `sequence_order`. -/
def buildHierarchy (l : List Item) : List HNode :=
  sortBySeq ((rootItems l).map (buildNode l l.length))

mutual

/-- All nodes of a tree, the node itself included (pre-order). -/
def allNodesN : HNode → List HNode
  | .node it cs => .node it cs :: allNodesF cs

/-- All nodes of a forest, in pre-order. -/
def allNodesF : List HNode → List HNode
  | [] => []
  | n :: ns => allNodesN n ++ allNodesF ns

end

/-- Total number of nodes reachable from the roots of a forest. -/
def countF (ns : List HNode) : Nat := (allNodesF ns).length

theorem allNodesN_node (it : Item) (cs : List HNode) :
    allNodesN (.node it cs) = .node it cs :: allNodesF cs := rfl

@[simp] theorem allNodesF_nil : allNodesF [] = [] := rfl

@[simp] theorem allNodesF_cons (n : HNode) (ns : List HNode) :
    allNodesF (n :: ns) = allNodesN n ++ allNodesF ns := rfl

theorem allNodesF_eq_flatMap (ns : List HNode) :
    allNodesF ns = ns.flatMap allNodesN := by
  induction ns with
  | nil => rfl
  | cons n ns ih => rw [allNodesF_cons, List.flatMap_cons, ih]

@[simp] theorem allNodesF_append (a b : List HNode) :
    allNodesF (a ++ b) = allNodesF a ++ allNodesF b := by
  simp [allNodesF_eq_flatMap]

theorem self_mem_allNodesN (n : HNode) : n ∈ allNodesN n := by
  cases n with
  | node it cs => rw [allNodesN_node]; exact List.mem_cons_self _ _

theorem allNodesF_perm {ns ms : List HNode} (h : ns.Perm ms) :
    (allNodesF ns).Perm (allNodesF ms) := by
  rw [allNodesF_eq_flatMap, allNodesF_eq_flatMap]
  exact h.flatMap_right _

theorem mem_allNodesF {n : HNode} {ns : List HNode} :
    n ∈ allNodesF ns ↔ ∃ m ∈ ns, n ∈ allNodesN m := by
  simp [allNodesF_eq_flatMap, List.mem_flatMap]

@[simp] theorem buildNode_item (l : List Item) (f : Nat) (it : Item) :
    (buildNode l f it).item = it := by
  cases f <;> rfl

theorem mem_sortBySeq {n : HNode} {ns : List HNode} :
    n ∈ sortBySeq ns ↔ n ∈ ns := by
  simp [sortBySeq, List.mem_insertionSort]

theorem sortBySeq_perm (ns : List HNode) : (sortBySeq ns).Perm ns :=
  List.perm_insertionSort _ _

theorem mem_rootItems {l : List Item} {r : Item} :
    r ∈ rootItems l ↔ r ∈ l ∧ parentOf l r = none := by
  simp [rootItems, List.mem_filter, Option.isNone_iff_eq_none]

theorem mem_childItems {l : List Item} {c : Item} {pid : Nat} :
    c ∈ childItems l pid ↔ c ∈ l ∧ parentOf l c = some pid := by
  simp [childItems, List.mem_filter]

/-- The truthiness test `item.parent_id && …` never resolves a parent id of
`0`, whatever the input. -/
theorem parentOf_ne_some_zero (l : List Item) (it : Item) :
    parentOf l it ≠ some 0 := by
  unfold parentOf
  cases h : it.parent_id with
  | none => simp
  | some p =>
    by_cases hp : p ≠ 0 ∧ p ∈ idsOf l
    · simp only [if_pos hp]
      intro hc
      exact hp.1 (by injection hc)
    · simp [if_neg hp]

/-- No record is ever attached below a node whose id is `0`. -/
theorem childItems_zero (l : List Item) : childItems l 0 = [] := by
  unfold childItems
  rw [List.filter_eq_nil_iff]
  intro it _
  simpa using parentOf_ne_some_zero l it

/-- Every node occurring anywhere in a built tree is itself a built tree
(with some fuel and some record at its root). -/
theorem shape_allNodesN (l : List Item) :
    ∀ f it n, n ∈ allNodesN (buildNode l f it) →
      ∃ g it', n = buildNode l g it' := by
  intro f
  induction f with
  | zero =>
    intro it n hn
    rw [buildNode, allNodesN_node] at hn
    rcases List.mem_cons.mp hn with h | h
    · exact ⟨0, it, by rw [h, buildNode]⟩
    · simp at h
  | succ f ih =>
    intro it n hn
    rw [buildNode, allNodesN_node] at hn
    rcases List.mem_cons.mp hn with h | h
    · exact ⟨f + 1, it, by rw [h, buildNode]⟩
    · have hperm := allNodesF_perm (sortBySeq_perm
        ((childItems l it.id).map (buildNode l f)))
      have h2 := hperm.mem_iff.mp h
      rw [allNodesF_eq_flatMap, List.mem_flatMap] at h2
      obtain ⟨m, hm, hnm⟩ := h2
      obtain ⟨c, _, rfl⟩ := List.mem_map.mp hm
      exact ih c n hnm

/-- Every node occurring in the forest returned by `buildHierarchy` is a
built tree. -/
theorem shape_buildHierarchy (l : List Item) :
    ∀ n ∈ allNodesF (buildHierarchy l), ∃ g it', n = buildNode l g it' := by
  intro n hn
  have hperm := allNodesF_perm (sortBySeq_perm
    ((rootItems l).map (buildNode l l.length)))
  have h2 := hperm.mem_iff.mp hn
  rw [allNodesF_eq_flatMap, List.mem_flatMap] at h2
  obtain ⟨m, hm, hnm⟩ := h2
  obtain ⟨r, _, rfl⟩ := List.mem_map.mp hm
  exact shape_allNodesN l _ r n hnm

/-- Record with only the structural fields populated; used for concrete
test inputs. -/
def plainItem (i : Nat) (p : Option Nat) (s : Int) : Item :=
  ⟨i, p, [], none, none, none, s⟩

/-- C5: Orphan fallback — a record whose `parent_id` is non-null but equals
no id of any input record is placed (as a node) in the returned roots
sequence of `buildHierarchy`, not dropped. -/
theorem orphan_fallback (l : List Item) (r : Item) (p : Nat)
    (hnd : (idsOf l).Nodup) (hr : r ∈ l) (hp : r.parent_id = some p)
    (hnotin : p ∉ idsOf l) :
    ∃ n ∈ buildHierarchy l, n.item = r := by
  have hroot : r ∈ rootItems l := by
    rw [mem_rootItems]
    refine ⟨hr, ?_⟩
    unfold parentOf
    rw [hp]
    show (if p ≠ 0 ∧ p ∈ idsOf l then some p else none) = none
    rw [if_neg]
    rintro ⟨-, h2⟩
    exact hnotin h2
  refine ⟨buildNode l l.length r, ?_, buildNode_item _ _ _⟩
  rw [buildHierarchy, mem_sortBySeq]
  exact List.mem_map_of_mem _ hroot

theorem orphan_fallback_witness :
    (idsOf [plainItem 1 none 1, plainItem 2 (some 99) 2]).Nodup ∧
      ∃ n ∈ buildHierarchy [plainItem 1 none 1, plainItem 2 (some 99) 2],
        n.item = plainItem 2 (some 99) 2 :=
  ⟨by decide,
   orphan_fallback [plainItem 1 none 1, plainItem 2 (some 99) 2]
     (plainItem 2 (some 99) 2) 99 (by decide) (by decide) (by decide)
     (by decide)⟩

/-- C10: a record whose `parent_id` is `0` is treated exactly like a record
with a missing parent — it lands in the roots sequence — even when a record
with id `0` exists in the input; moreover no node whose id is `0` ever
receives any child, so such a record is never linked below the id-`0`
node. -/
theorem zero_parent_is_root (l : List Item) (r : Item)
    (hnd : (idsOf l).Nodup) (hr : r ∈ l) (hp : r.parent_id = some 0) :
    (∃ n ∈ buildHierarchy l, n.item = r) ∧
      ∀ n ∈ allNodesF (buildHierarchy l), n.item.id = 0 → n.children = [] := by
  constructor
  · have hroot : r ∈ rootItems l := by
      rw [mem_rootItems]
      refine ⟨hr, ?_⟩
      unfold parentOf
      rw [hp]
      show (if (0 : Nat) ≠ 0 ∧ (0 : Nat) ∈ idsOf l then some 0 else none) = none
      rw [if_neg]
      rintro ⟨h1, -⟩
      exact h1 rfl
    refine ⟨buildNode l l.length r, ?_, buildNode_item _ _ _⟩
    rw [buildHierarchy, mem_sortBySeq]
    exact List.mem_map_of_mem _ hroot
  · intro n hn hid
    obtain ⟨g, it', rfl⟩ := shape_buildHierarchy l n hn
    have hit : it'.id = 0 := by simpa using hid
    cases g with
    | zero => rfl
    | succ g =>
      rw [buildNode]
      simp only [HNode.children_node]
      rw [hit, childItems_zero]
      rfl

theorem zero_parent_is_root_witness :
    (idsOf [plainItem 0 none 1, plainItem 5 (some 0) 2]).Nodup ∧
      (∃ n ∈ buildHierarchy [plainItem 0 none 1, plainItem 5 (some 0) 2],
        n.item = plainItem 5 (some 0) 2) ∧
      ∀ n ∈ allNodesF (buildHierarchy [plainItem 0 none 1,
          plainItem 5 (some 0) 2]), n.item.id = 0 → n.children = [] :=
  ⟨by decide,
   (zero_parent_is_root [plainItem 0 none 1, plainItem 5 (some 0) 2]
     (plainItem 5 (some 0) 2) (by decide) (by decide) (by decide)).1,
   (zero_parent_is_root [plainItem 0 none 1, plainItem 5 (some 0) 2]
     (plainItem 5 (some 0) 2) (by decide) (by decide) (by decide)).2⟩

/-- Match test of one nullable field, following the optional chaining
`node.title?.toLowerCase().includes(term.toLowerCase())` of `handleSearch`
(`BuildingCodeViewer.tsx`): a missing field contributes `false`. -/
def optCIContains (o : Option (List Char)) (term : List Char) : Bool :=
  match o with
  | none => false
  | some s => ciContains s term

/-- Per-node match test of `handleSearch`: the (raw, untrimmed) term is
looked for case-insensitively inside `title`, `content_text` or
`reference_code`. -/
def matchesSearch (term : List Char) (it : Item) : Bool :=
  optCIContains it.title term || optCIContains it.content_text term ||
    optCIContains it.reference_code term

mutual

/-- Visit of one node by `searchInNodes` inside `handleSearch`: the node is
pushed first when it matches, then its children subtree is visited. -/
def searchInNode (term : List Char) : HNode → List HNode
  | .node it cs =>
      (if matchesSearch term it then [HNode.node it cs] else []) ++
        searchInNodes term cs

/-- Recursive collection of `searchInNodes` inside `handleSearch`: every
node of the forest is visited in depth-first pre-order, and matching nodes
are pushed in visit order. -/
def searchInNodes (term : List Char) : List HNode → List HNode
  | [] => []
  | n :: rest => searchInNode term n ++ searchInNodes term rest

end

/-- Search-related component state set by `handleSearch`. -/
structure SearchState where
  searchTerm : List Char
  searchResults : List HNode

/-- Model of `handleSearch` (`BuildingCodeViewer.tsx`): the term is stored
unchanged; a blank (all-whitespace) term clears the results and returns
early, otherwise the matching nodes of the loaded forest are collected. -/
def handleSearch (data : List HNode) (term : List Char) : SearchState :=
  if (trimStr term).isEmpty then ⟨term, []⟩
  else ⟨term, searchInNodes term data⟩

/-- Model of the `isSearchMode` memo (`BuildingCodeViewer.tsx`):
`searchTerm.trim().length > 0 && searchResults.length > 0`. -/
def isSearchMode (st : SearchState) : Bool :=
  decide (0 < (trimStr st.searchTerm).length) &&
    decide (0 < st.searchResults.length)

/-- Layouts the main JSX of `BuildingCodeViewer` can render around the
content pane. -/
inductive SidebarView where
  | searchResults
  | browse
deriving DecidableEq

/-- Sidebar choice of the render: the search-results column is rendered
exactly when `isSearchMode` holds (`{isSearchMode && <aside …>}`), and the
browse navigation sidebar exactly otherwise (`{!isSearchMode && <aside …>}`).
No other branch exists in the component — in particular there is no
dedicated empty-results branch. -/
def sidebarView (st : SearchState) : SidebarView :=
  if isSearchMode st then .searchResults else .browse

/-- Collection by `searchInNodes` is exactly a filter of the pre-order node
traversal. -/
theorem searchInNodes_eq_filter (term : List Char) (ns : List HNode) :
    searchInNodes term ns =
      (allNodesF ns).filter fun n => matchesSearch term n.item := by
  refine (searchInNodes.induct term
    (fun n => searchInNode term n =
      (allNodesN n).filter fun m => matchesSearch term m.item)
    (fun ms => searchInNodes term ms =
      (allNodesF ms).filter fun m => matchesSearch term m.item)
    ?_ ?_ ?_) ns
  · intro it cs ih
    rw [searchInNode, allNodesN_node, List.filter_cons, ih]
    by_cases h : matchesSearch term it
    · simp [h]
    · simp [h]
  · rfl
  · intro n rest ih1 ih2
    rw [searchInNodes, allNodesF_cons, List.filter_append, ih1, ih2]

/-- Sample division record used for concrete checks. -/
def sA : Item :=
  ⟨1, none, "division".toList, some ("The Building Code".toList), none,
    some ("9".toList), 1⟩

/-- Sample part record used for concrete checks. -/
def sB : Item :=
  ⟨2, some 1, "part".toList, some ("Fire Protection".toList), none,
    some ("9.10".toList), 1⟩

/-- Sample article record used for concrete checks. -/
def sC : Item :=
  ⟨3, some 2, "article".toList,
    some ("Required Fire Separations".toList), none,
    some ("9.10.14.2".toList), 1⟩

/-- Sample depth-3 forest used for concrete checks. -/
def sampleForest : List HNode :=
  [.node sA [.node sB [.node sC []]]]

/-- Helper: activation condition of `isSearchMode` right after
`handleSearch`, stated against the tree. -/
theorem searchActive_iff (data : List HNode) (term : List Char) :
    isSearchMode (handleSearch data term) = true ↔
      (trimStr term ≠ [] ∧
        ∃ n ∈ allNodesF data, matchesSearch term n.item = true) := by
  have hres : (handleSearch data term).searchTerm = term := by
    unfold handleSearch
    by_cases h : (trimStr term).isEmpty <;> simp [h]
  constructor
  · intro h
    unfold isSearchMode at h
    rw [Bool.and_eq_true, decide_eq_true_iff, decide_eq_true_iff] at h
    obtain ⟨h1, h2⟩ := h
    rw [hres] at h1
    have hne : trimStr term ≠ [] := by
      intro hc
      rw [hc] at h1
      simp at h1
    refine ⟨hne, ?_⟩
    have hsr : (handleSearch data term).searchResults =
        searchInNodes term data := by
      unfold handleSearch
      rw [if_neg (by simpa [List.isEmpty_iff] using hne)]
    rw [hsr, searchInNodes_eq_filter] at h2
    rcases List.exists_mem_of_length_pos h2 with ⟨n, hn⟩
    have := List.mem_filter.mp hn
    exact ⟨n, this.1, this.2⟩
  · rintro ⟨hne, n, hn, hm⟩
    have hsr : (handleSearch data term).searchResults =
        searchInNodes term data := by
      unfold handleSearch
      rw [if_neg (by simpa [List.isEmpty_iff] using hne)]
    unfold isSearchMode
    rw [Bool.and_eq_true, decide_eq_true_iff, decide_eq_true_iff, hres, hsr,
      searchInNodes_eq_filter]
    constructor
    · cases h : trimStr term with
      | nil => exact absurd h hne
      | cons c cs => simp
    · have : n ∈ (allNodesF data).filter fun m => matchesSearch term m.item :=
        List.mem_filter.mpr ⟨hn, hm⟩
      exact List.length_pos_of_mem this

/-- C1 (amended): search mode is active exactly when the trimmed query is
non-empty and at least one tree node matches the query; and for every
non-blank query with zero matches the viewer falls back to the browse
layout (the navigation sidebar), there being no dedicated empty-results
branch in the render. -/
theorem search_mode_activation (data : List HNode) (term : List Char) :
    (isSearchMode (handleSearch data term) = true ↔
      (trimStr term ≠ [] ∧
        ∃ n ∈ allNodesF data, matchesSearch term n.item = true)) ∧
    ((trimStr term ≠ [] ∧
        ∀ n ∈ allNodesF data, matchesSearch term n.item = false) →
      sidebarView (handleSearch data term) = SidebarView.browse) := by
  refine ⟨searchActive_iff data term, ?_⟩
  rintro ⟨hne, hall⟩
  unfold sidebarView
  rw [if_neg]
  intro hmode
  obtain ⟨-, n, hn, hm⟩ := (searchActive_iff data term).mp hmode
  rw [hall n hn] at hm
  exact Bool.false_ne_true hm

theorem search_mode_activation_witness :
    sidebarView (handleSearch sampleForest ("zzz".toList)) =
      SidebarView.browse :=
  (search_mode_activation sampleForest ("zzz".toList)).2
    ⟨by decide, by decide⟩

/-- C1 counterexample to the claim as stated: the non-blank query `"zzz"`
has zero matches on the sample tree, yet the viewer renders the plain
browse layout — there is no distinct empty-results state. -/
theorem search_empty_results_counterexample :
    trimStr ("zzz".toList) ≠ [] ∧
      (handleSearch sampleForest ("zzz".toList)).searchResults = [] ∧
      isSearchMode (handleSearch sampleForest ("zzz".toList)) = false ∧
      sidebarView (handleSearch sampleForest ("zzz".toList)) =
        SidebarView.browse := by
  refine ⟨by decide, ?_, by decide, ?_⟩
  · rw [handleSearch, if_neg (by decide)]
    decide
  · rw [sidebarView, if_neg (by decide)]

/-- Ids of all nodes of a forest, in pre-order. -/
def forestIds (ns : List HNode) : List Nat :=
  (allNodesF ns).map fun n => n.item.id

mutual

/-- Visit of one node by the `expandParents` helper of `navigateToItem`
(`BuildingCodeViewer.tsx`): if the node is the target, the accumulated
`parents` list is the answer; otherwise the children are searched with the
node's own id appended (`[...parents, node.id]`). -/
def findAncestorsN (tid : Nat) (parents : List Nat) : HNode → Option (List Nat)
  | .node it cs =>
      if it.id = tid then some parents
      else findAncestors tid (parents ++ [it.id]) cs

/-- Depth-first left-to-right search of `expandParents`: the first branch
that finds the target wins; `none` models the `false` return. -/
def findAncestors (tid : Nat) (parents : List Nat) : List HNode → Option (List Nat)
  | [] => none
  | n :: rest =>
      match findAncestorsN tid parents n with
      | some ps => some ps
      | none => findAncestors tid parents rest

end

/-- Selection / expansion state of the viewer component. -/
structure NavState where
  selectedItem : Option Nat
  expandedItems : Finset Nat

/-- Deferred DOM side effect of `navigateToItem`: either scroll to the
target element and flash a transient highlight, or (when no element is
registered under the target id in `contentRefs`) only log a warning. -/
inductive ScrollEffect where
  | scrollAndHighlight (id : Nat)
  | warnMissing (id : Nat)
deriving DecidableEq

/-- Model of the delayed scroll block of `navigateToItem`: `refs` is the
key set of `contentRefs.current`, which the render populates only with ids
of nodes of the loaded tree. -/
def scrollEffect (refs : Finset Nat) (id : Nat) : ScrollEffect :=
  if id ∈ refs then .scrollAndHighlight id else .warnMissing id

/-- Model of `navigateToItem` (`BuildingCodeViewer.tsx`): the selection is
set to the target unconditionally; when `expandParents` finds the target,
every accumulated parent id is added to the expanded set (`setExpandedItems`
is not called at all otherwise); finally the scroll-or-warn effect runs. -/
def navigateToItem (data : List HNode) (refs : Finset Nat) (st : NavState)
    (id : Nat) : NavState × ScrollEffect :=
  let expanded' :=
    match findAncestors id [] data with
    | some ps => st.expandedItems ∪ ps.toFinset
    | none => st.expandedItems
  (⟨some id, expanded'⟩, scrollEffect refs id)

mutual

/-- Pre-order annotation of a tree: every node id paired with the ids of
its proper ancestors (nearest last), in depth-first pre-order. -/
def annotateN (anc : List Nat) : HNode → List (Nat × List Nat)
  | .node it cs => (it.id, anc) :: annotateF (anc ++ [it.id]) cs

/-- Pre-order annotation of a forest. -/
def annotateF (anc : List Nat) : List HNode → List (Nat × List Nat)
  | [] => []
  | n :: rest => annotateN anc n ++ annotateF anc rest

end

/-- Proper-ancestor ids of the first depth-first pre-order occurrence of
`tid` in the forest, when `tid` occurs at all. -/
def firstPreorderAncestors (ns : List HNode) (tid : Nat) : Option (List Nat) :=
  ((annotateF [] ns).find? fun p => p.1 = tid).map Prod.snd

/-- The accumulator-style search of `expandParents` computes exactly the
ancestor column of the first matching entry of the pre-order annotation. -/
theorem findAncestors_eq (tid : Nat) :
    ∀ (anc : List Nat) (ns : List HNode),
      findAncestors tid anc ns =
        ((annotateF anc ns).find? fun p => p.1 = tid).map Prod.snd := by
  refine annotateF.induct
    (fun anc n => findAncestorsN tid anc n =
      ((annotateN anc n).find? fun p => p.1 = tid).map Prod.snd)
    (fun anc ns => findAncestors tid anc ns =
      ((annotateF anc ns).find? fun p => p.1 = tid).map Prod.snd)
    ?_ ?_ ?_
  · intro anc it cs ih
    rw [findAncestorsN, annotateN]
    by_cases h : it.id = tid
    · rw [if_pos h, List.find?_cons_of_pos _ (by simp [h])]
      rfl
    · rw [if_neg h, List.find?_cons_of_neg _ (by simp [h]), ih]
  · intro anc
    rfl
  · intro anc n ns ih1 ih2
    rw [findAncestors, annotateF, List.find?_append, ih1, ih2]
    cases hf : (annotateN anc n).find? fun p => p.1 = tid with
    | some q => simp
    | none => simp

/-- First matching entry of the annotation never lists the target itself
among the recorded ancestors (provided the seed accumulator does not). -/
theorem annotate_find_not_self (tid : Nat) :
    ∀ (anc : List Nat) (ns : List HNode) (q : Nat × List Nat), tid ∉ anc →
      ((annotateF anc ns).find? fun p => p.1 = tid) = some q →
      tid ∉ q.2 := by
  refine annotateF.induct
    (fun anc n => ∀ q : Nat × List Nat, tid ∉ anc →
      ((annotateN anc n).find? fun p => p.1 = tid) = some q → tid ∉ q.2)
    (fun anc ns => ∀ q : Nat × List Nat, tid ∉ anc →
      ((annotateF anc ns).find? fun p => p.1 = tid) = some q → tid ∉ q.2)
    ?_ ?_ ?_
  · intro anc it cs ih q hanc hfind
    rw [annotateN] at hfind
    by_cases h : it.id = tid
    · rw [List.find?_cons_of_pos _ (by simp [h])] at hfind
      injection hfind with hq
      rw [← hq]
      exact hanc
    · rw [List.find?_cons_of_neg _ (by simp [h])] at hfind
      refine ih q ?_ hfind
      intro hc
      rcases List.mem_append.mp hc with hc1 | hc1
      · exact hanc hc1
      · exact h (List.mem_singleton.mp hc1).symm
  · intro anc q _ hfind
    simp [annotateF] at hfind
  · intro anc n ns ih1 ih2 q hanc hfind
    rw [annotateF, List.find?_append] at hfind
    cases hf : (annotateN anc n).find? fun p => p.1 = tid with
    | some r =>
      rw [hf, Option.or_some] at hfind
      injection hfind with hr
      exact hr ▸ ih1 r hanc hf
    | none =>
      rw [hf, Option.none_or] at hfind
      exact ih2 q hanc hfind

/-- The first column of the pre-order annotation is the pre-order id
listing of the forest. -/
theorem annotateF_map_fst :
    ∀ (anc : List Nat) (ns : List HNode),
      (annotateF anc ns).map Prod.fst = forestIds ns := by
  refine annotateF.induct
    (fun anc n => (annotateN anc n).map Prod.fst =
      (allNodesN n).map fun m => m.item.id)
    (fun anc ns => (annotateF anc ns).map Prod.fst = forestIds ns)
    ?_ ?_ ?_
  · intro anc it cs ih
    rw [annotateN, List.map_cons, ih, allNodesN_node, List.map_cons]
    rfl
  · intro anc
    rfl
  · intro anc n ns ih1 ih2
    rw [annotateF, List.map_append, ih1, ih2]
    show _ = (allNodesF (n :: ns)).map _
    rw [allNodesF_cons, List.map_append]
    rfl

/-- A target that occurs nowhere in the forest is never found by
`expandParents`. -/
theorem findAncestors_eq_none (tid : Nat) (ns : List HNode)
    (h : tid ∉ forestIds ns) : findAncestors tid [] ns = none := by
  rw [findAncestors_eq]
  have hfind : ((annotateF [] ns).find? fun p => p.1 = tid) = none := by
    rw [List.find?_eq_none]
    intro p hp
    simp only [decide_eq_true_eq]
    intro hq
    apply h
    rw [← annotateF_map_fst [] ns]
    exact hq ▸ List.mem_map_of_mem Prod.fst hp
  rw [hfind]
  rfl

/-- C2: for every target id occurring in the tree, `navigateToItem` sets the
selection to the target, and the new expanded set is the old one united
with exactly the proper-ancestor ids (the target itself excluded) of the
first depth-first pre-order occurrence of the target; no previously
expanded id is removed. -/
theorem navigate_expands_ancestors (data : List HNode) (refs : Finset Nat)
    (st : NavState) (tid : Nat) (h : tid ∈ forestIds data) :
    ∃ anc, firstPreorderAncestors data tid = some anc ∧ tid ∉ anc ∧
      (navigateToItem data refs st tid).1.selectedItem = some tid ∧
      (navigateToItem data refs st tid).1.expandedItems =
        st.expandedItems ∪ anc.toFinset ∧
      st.expandedItems ⊆ (navigateToItem data refs st tid).1.expandedItems := by
  have hex : ∃ p ∈ annotateF [] data, (fun q : Nat × List Nat =>
      decide (q.1 = tid)) p = true := by
    rw [← annotateF_map_fst [] data] at h
    obtain ⟨p, hp, hfst⟩ := List.mem_map.mp h
    exact ⟨p, hp, by simp [hfst]⟩
  have hsome : (((annotateF [] data).find? fun p => p.1 = tid)).isSome := by
    rw [List.find?_isSome]
    obtain ⟨p, hp, hpp⟩ := hex
    exact ⟨p, hp, hpp⟩
  obtain ⟨q, hq⟩ := Option.isSome_iff_exists.mp hsome
  refine ⟨q.2, ?_, ?_, ?_, ?_, ?_⟩
  · rw [firstPreorderAncestors, hq]
    rfl
  · exact annotate_find_not_self tid [] data q (by simp) hq
  · rfl
  · show (match findAncestors tid [] data with
      | some ps => st.expandedItems ∪ ps.toFinset
      | none => st.expandedItems) = st.expandedItems ∪ q.2.toFinset
    rw [findAncestors_eq, hq]
    rfl
  · intro x hx
    show x ∈ (match findAncestors tid [] data with
      | some ps => st.expandedItems ∪ ps.toFinset
      | none => st.expandedItems)
    rw [findAncestors_eq, hq]
    exact Finset.mem_union_left _ hx

theorem navigate_expands_ancestors_witness :
    ∃ anc, firstPreorderAncestors sampleForest 3 = some anc ∧ 3 ∉ anc ∧
      (navigateToItem sampleForest ∅ ⟨none, ∅⟩ 3).1.selectedItem = some 3 ∧
      (navigateToItem sampleForest ∅ ⟨none, ∅⟩ 3).1.expandedItems =
        (NavState.mk none ∅).expandedItems ∪ anc.toFinset ∧
      (NavState.mk none ∅).expandedItems ⊆
        (navigateToItem sampleForest ∅ ⟨none, ∅⟩ 3).1.expandedItems :=
  navigate_expands_ancestors sampleForest ∅ ⟨none, ∅⟩ 3 (by decide)

/-- C9: navigating to a target id that occurs nowhere in the tree is total
and harmless — the selection is still recorded, the expanded set is left
unchanged (the `expandParents` walk returns `false` without touching it),
and the deferred scroll instruction degrades to the `console.warn`
diagnostic only. -/
theorem navigate_missing_target (data : List HNode) (refs : Finset Nat)
    (st : NavState) (tid : Nat) (h1 : tid ∉ forestIds data)
    (h2 : ∀ i ∈ refs, i ∈ forestIds data) :
    navigateToItem data refs st tid =
      (⟨some tid, st.expandedItems⟩, ScrollEffect.warnMissing tid) := by
  unfold navigateToItem
  rw [findAncestors_eq_none tid data h1]
  unfold scrollEffect
  rw [if_neg]
  intro hc
  exact h1 (h2 tid hc)

theorem navigate_missing_target_witness :
    navigateToItem sampleForest ∅ ⟨none, ∅⟩ 99 =
      (⟨some 99, (NavState.mk none ∅).expandedItems⟩,
        ScrollEffect.warnMissing 99) :=
  navigate_missing_target sampleForest ∅ ⟨none, ∅⟩ 99 (by decide)
    (fun i hi => absurd hi (Finset.not_mem_empty i))

/-- Record of `l` carrying id `p`, if any (first match). -/
def findItem (l : List Item) (p : Nat) : Option Item :=
  l.find? fun it => it.id = p

/-- One step up the resolved-parent relation of the flat input. -/
def pStep (l : List Item) (it : Item) : Option Item :=
  match parentOf l it with
  | none => none
  | some p => findItem l p

/-- Iterated parent steps: `pIter l k it` is the `k`-th ancestor record of
`it` along resolved parents, or `none` when the chain has ended before. -/
def pIter (l : List Item) : Nat → Item → Option Item
  | 0, it => some it
  | k + 1, it =>
      match pIter l k it with
      | none => none
      | some y => pStep l y

/-- A record whose resolved-parent chain terminates (reaches a record with
no resolved parent).  Inputs in which every record is rooted are exactly the
acyclic inputs. -/
def Rooted (l : List Item) (x : Item) : Prop := ∃ k, pIter l k x = none

theorem pIter_add (l : List Item) (a b : Nat) (x : Item) :
    pIter l (a + b) x =
      match pIter l a x with
      | none => none
      | some y => pIter l b y := by
  induction b with
  | zero =>
    cases h : pIter l a x <;> simp [pIter, h]
  | succ b ih =>
    show pIter l ((a + b) + 1) x = _
    rw [pIter, ih]
    cases h : pIter l a x with
    | none => rfl
    | some y => rfl

theorem pIter_none_mono (l : List Item) {a b : Nat} (x : Item)
    (hab : a ≤ b) (h : pIter l a x = none) : pIter l b x = none := by
  have : b = a + (b - a) := by omega
  rw [this, pIter_add, h]

theorem mem_of_findItem (l : List Item) (p : Nat) (y : Item)
    (h : findItem l p = some y) : y ∈ l ∧ y.id = p := by
  refine ⟨List.mem_of_find?_eq_some h, ?_⟩
  have := List.find?_some h
  simpa using this

theorem pStep_mem (l : List Item) (x y : Item) (h : pStep l x = some y) :
    y ∈ l := by
  unfold pStep at h
  cases hp : parentOf l x with
  | none => rw [hp] at h; exact absurd h (by simp)
  | some p => rw [hp] at h; exact (mem_of_findItem l p y h).1

theorem pIter_mem (l : List Item) (k : Nat) (x y : Item) (hx : x ∈ l)
    (h : pIter l k x = some y) : y ∈ l := by
  induction k generalizing y with
  | zero => rw [pIter] at h; injection h with h; exact h ▸ hx
  | succ k ih =>
    rw [pIter] at h
    cases hk : pIter l k x with
    | none => rw [hk] at h; exact absurd h (by simp)
    | some z => rw [hk] at h; exact pStep_mem l z y h

/-- With duplicate-free ids, looking up a record's own id returns that very
record. -/
theorem findItem_self (l : List Item) (hnd : (idsOf l).Nodup) (it : Item)
    (hit : it ∈ l) : findItem l it.id = some it := by
  induction l with
  | nil => cases hit
  | cons y ys ih =>
    rw [idsOf, List.map_cons, List.nodup_cons] at hnd
    unfold findItem
    by_cases h : y.id = it.id
    · rw [List.find?_cons_of_pos _ (by simp [h])]
      rcases List.mem_cons.mp hit with rfl | hmem
      · rfl
      · exact absurd (h ▸ List.mem_map_of_mem Item.id hmem) hnd.1
    · rw [List.find?_cons_of_neg _ (by simp [h])]
      rcases List.mem_cons.mp hit with rfl | hmem
      · exact absurd rfl h
      · exact ih hnd.2 hmem

/-- A resolved parent id always has a record to look up. -/
theorem pStep_eq_none_iff (l : List Item) (x : Item) :
    pStep l x = none ↔ parentOf l x = none := by
  constructor
  · intro h
    cases hp : parentOf l x with
    | none => rfl
    | some p =>
      exfalso
      have hpin : p ∈ idsOf l := by
        unfold parentOf at hp
        cases hx : x.parent_id with
        | none => rw [hx] at hp; exact absurd hp (by simp)
        | some q =>
          rw [hx] at hp
          by_cases hc : q ≠ 0 ∧ q ∈ idsOf l
          · have : some q = some p := by
              rw [← hp]
              show some q = if q ≠ 0 ∧ q ∈ idsOf l then some q else none
              rw [if_pos hc]
            injection this with hqp
            exact hqp ▸ hc.2
          · have : (none : Option Nat) = some p := by
              rw [← hp]
              show (none : Option Nat) =
                if q ≠ 0 ∧ q ∈ idsOf l then some q else none
              rw [if_neg hc]
            exact absurd this (by simp)
      obtain ⟨z, hz, hzid⟩ := List.mem_map.mp hpin
      unfold pStep at h
      rw [hp] at h
      have h2 : findItem l p = none := h
      have : (findItem l p).isSome := by
        rw [findItem, List.find?_isSome]
        exact ⟨z, hz, by simp [hzid]⟩
      rw [h2] at this
      exact absurd this (by simp)
  · intro h
    unfold pStep
    rw [h]

/-- A chain that revisits itself with period `p > 0` never terminates. -/
theorem cycle_no_termination (l : List Item) (x : Item) (p : Nat)
    (hp : 0 < p) (hcyc : pIter l p x = some x) :
    ∀ m, pIter l m x ≠ none := by
  have hmul : ∀ j, pIter l (j * p) x = some x := by
    intro j
    induction j with
    | zero => rw [Nat.zero_mul]; rfl
    | succ j ih =>
      have : (j + 1) * p = j * p + p := by ring
      rw [this, pIter_add, ih]
      exact hcyc
  intro m hm
  have hle : m ≤ m * p + p := by
    have := Nat.le_mul_of_pos_right m hp
    omega
  have := pIter_none_mono l x hle hm
  rw [show m * p + p = (m + 1) * p by ring, hmul (m + 1)] at this
  exact absurd this (by simp)

/-- A chain that passes twice through the same record never terminates. -/
theorem revisit_no_termination (l : List Item) (x y : Item) {i j : Nat}
    (hij : i < j) (hi : pIter l i x = some y) (hj : pIter l j x = some y) :
    ∀ m, pIter l m x ≠ none := by
  have hcy : pIter l (j - i) y = some y := by
    have : j = i + (j - i) := by omega
    rw [this, pIter_add, hi] at hj
    exact hj
  have hy := cycle_no_termination l y (j - i) (by omega) hcy
  intro m hm
  rcases le_or_lt m i with hle | hlt
  · have := pIter_none_mono l x hle hm
    rw [hi] at this
    exact absurd this (by simp)
  · have : pIter l (i + (m - i)) x = none := by
      rw [show i + (m - i) = m by omega]
      exact hm
    rw [pIter_add, hi] at this
    exact hy (m - i) this

/-- A chain from a record of the input to a terminal record (one with no
resolved parent) is injective, so its length is below the input length. -/
theorem chain_bound (l : List Item) (x r : Item) (k : Nat) (hx : x ∈ l)
    (hr : pStep l r = none) (hk : pIter l k x = some r) : k < l.length := by
  have hsome : ∀ i, i ≤ k → (pIter l i x).isSome := by
    intro i hi
    cases h : pIter l i x with
    | none =>
      have := pIter_none_mono l x hi h
      rw [hk] at this
      exact absurd this (by simp)
    | some y => rfl
  have hterm : pIter l (k + 1) x = none := by
    rw [pIter, hk]
    exact hr
  have hinj : ∀ i j, i ≤ k → j ≤ k → pIter l i x = pIter l j x → i = j := by
    have haux : ∀ i j, i < j → j ≤ k → pIter l i x = pIter l j x → False := by
      intro i j hij hj hEq
      obtain ⟨y, hy⟩ := Option.isSome_iff_exists.mp (hsome i (by omega))
      have hy2 : pIter l j x = some y := by rw [← hEq, hy]
      exact revisit_no_termination l x y hij hy hy2 (k + 1) hterm
    intro i j hi hj hEq
    rcases Nat.lt_trichotomy i j with h | h | h
    · exact absurd (haux i j h hj hEq) id
    · exact h
    · exact absurd (haux j i h hi hEq.symm) id
  have hcard := Finset.card_le_card_of_injOn (fun i => pIter l i x)
    (s := Finset.range (k + 1)) (t := l.toFinset.image some)
    (fun i hi => by
      obtain ⟨y, hy⟩ := Option.isSome_iff_exists.mp
        (hsome i (by simpa using Nat.lt_succ_iff.mp (Finset.mem_range.mp hi)))
      show pIter l i x ∈ l.toFinset.image some
      rw [hy]
      exact Finset.mem_image_of_mem some
        (List.mem_toFinset.mpr (pIter_mem l i x y hx hy)))
    (fun i hi j hj hEq => by
      have hi' := Nat.lt_succ_iff.mp (Finset.mem_range.mp (by simpa using hi))
      have hj' := Nat.lt_succ_iff.mp (Finset.mem_range.mp (by simpa using hj))
      exact hinj i j hi' hj' hEq)
  have h1 : (Finset.range (k + 1)).card = k + 1 := Finset.card_range _
  have h2 : (l.toFinset.image some).card ≤ l.toFinset.card :=
    Finset.card_image_le
  have h3 : l.toFinset.card ≤ l.length := List.toFinset_card_le l
  omega

/-- Every node of a built subtree is a record of the input whose resolved
parent chain climbs back to the subtree's root record, and the node is
itself built with the fuel left at its depth. -/
theorem desc_buildNode (l : List Item) (hnd : (idsOf l).Nodup) :
    ∀ f it n, it ∈ l → n ∈ allNodesN (buildNode l f it) →
      ∃ k, k ≤ f ∧ n.item ∈ l ∧ pIter l k n.item = some it ∧
        n = buildNode l (f - k) n.item := by
  intro f
  induction f with
  | zero =>
    intro it n hit hn
    rw [buildNode, allNodesN_node] at hn
    rcases List.mem_cons.mp hn with rfl | h
    · exact ⟨0, Nat.le_refl _, hit, rfl, rfl⟩
    · simp at h
  | succ f ih =>
    intro it n hit hn
    rw [buildNode, allNodesN_node] at hn
    rcases List.mem_cons.mp hn with rfl | h
    · exact ⟨0, Nat.zero_le _, hit, rfl, rfl⟩
    · have hperm := allNodesF_perm (sortBySeq_perm
        ((childItems l it.id).map (buildNode l f)))
      have h2 := hperm.mem_iff.mp h
      rw [allNodesF_eq_flatMap, List.mem_flatMap] at h2
      obtain ⟨m, hm, hnm⟩ := h2
      obtain ⟨c, hc, rfl⟩ := List.mem_map.mp hm
      have hcc := mem_childItems.mp hc
      obtain ⟨k, hkf, hmem, hpit, heq⟩ := ih c n hcc.1 hnm
      refine ⟨k + 1, by omega, hmem, ?_, ?_⟩
      · rw [pIter, hpit]
        show pStep l c = some it
        unfold pStep
        rw [hcc.2]
        exact findItem_self l hnd it hit
      · rw [show f + 1 - (k + 1) = f - k from by omega]
        exact heq

/-- With duplicate-free ids, every node of the forest `buildHierarchy`
returns was built with at least one unit of fuel: its children list is the
complete (sorted) list of nodes of its child records, never a fuel
truncation. -/
theorem shape_ge_one (l : List Item) (hnd : (idsOf l).Nodup) :
    ∀ n ∈ allNodesF (buildHierarchy l),
      n.item ∈ l ∧ ∃ g, n = buildNode l (g + 1) n.item := by
  intro n hn
  have hperm := allNodesF_perm (sortBySeq_perm
    ((rootItems l).map (buildNode l l.length)))
  have h2 := hperm.mem_iff.mp hn
  rw [allNodesF_eq_flatMap, List.mem_flatMap] at h2
  obtain ⟨m, hm, hnm⟩ := h2
  obtain ⟨r, hr, rfl⟩ := List.mem_map.mp hm
  have hrr := mem_rootItems.mp hr
  obtain ⟨k, hkf, hmem, hpit, heq⟩ := desc_buildNode l hnd l.length r n hrr.1 hnm
  have hstep : pStep l r = none := (pStep_eq_none_iff l r).mpr hrr.2
  have hbound := chain_bound l n.item r k hmem hstep hpit
  refine ⟨hmem, l.length - k - 1, ?_⟩
  rw [show l.length - k - 1 + 1 = l.length - k from by omega]
  exact heq

theorem sortBySeq_cons (x : HNode) (xs : List HNode) :
    sortBySeq (x :: xs) = List.orderedInsert seqLE x (sortBySeq xs) := rfl

/-- Inserting into a sibling list commutes with selecting any fixed
`sequence_order` class: the elements the insertion walks past compare
strictly below the inserted one, so they are never in the same class. -/
theorem filter_orderedInsert_seq (k : Int) (x : HNode) (ns : List HNode) :
    (List.orderedInsert seqLE x ns).filter
        (fun n => n.item.sequence_order = k) =
      (x :: ns).filter fun n => n.item.sequence_order = k := by
  induction ns with
  | nil => rfl
  | cons y ys ih =>
    rw [List.orderedInsert]
    by_cases h : seqLE x y
    · rw [if_pos h]
    · rw [if_neg h]
      have hlt : y.item.sequence_order < x.item.sequence_order := by
        unfold seqLE at h
        omega
      by_cases hx : x.item.sequence_order = k
      · have hy : ¬ y.item.sequence_order = k := by omega
        rw [List.filter_cons, if_neg (by simp [hy]), ih, List.filter_cons,
          if_pos (by simp [hx]), List.filter_cons, if_pos (by simp [hx]),
          List.filter_cons, if_neg (by simp [hy])]
      · by_cases hy : y.item.sequence_order = k
        · rw [List.filter_cons, if_pos (by simp [hy]), ih, List.filter_cons,
            if_neg (by simp [hx]), List.filter_cons, if_neg (by simp [hx]),
            List.filter_cons, if_pos (by simp [hy])]
        · rw [List.filter_cons, if_neg (by simp [hy]), ih, List.filter_cons,
            if_neg (by simp [hx]), List.filter_cons, if_neg (by simp [hx]),
            List.filter_cons, if_neg (by simp [hy])]

/-- The stable sort preserves every `sequence_order` class as a subsequence:
elements with equal keys keep their relative order. -/
theorem filter_sortBySeq_seq (k : Int) (ns : List HNode) :
    (sortBySeq ns).filter (fun n => n.item.sequence_order = k) =
      ns.filter fun n => n.item.sequence_order = k := by
  induction ns with
  | nil => rfl
  | cons x xs ih =>
    rw [sortBySeq_cons, filter_orderedInsert_seq, List.filter_cons,
      List.filter_cons]
    by_cases hx : x.item.sequence_order = k
    · rw [if_pos (by simp [hx]), if_pos (by simp [hx]), ih]
    · rw [if_neg (by simp [hx]), if_neg (by simp [hx]), ih]

/-- Sorted sibling lists everywhere below a built node. -/
theorem sorted_children_buildNode (l : List Item) :
    ∀ f it, ∀ n ∈ allNodesN (buildNode l f it),
      List.Sorted seqLE n.children := by
  intro f
  induction f with
  | zero =>
    intro it n hn
    rw [buildNode, allNodesN_node] at hn
    rcases List.mem_cons.mp hn with rfl | h
    · exact List.sorted_nil
    · simp at h
  | succ f ih =>
    intro it n hn
    rw [buildNode, allNodesN_node] at hn
    rcases List.mem_cons.mp hn with rfl | h
    · exact List.sorted_insertionSort seqLE _
    · have hperm := allNodesF_perm (sortBySeq_perm
        ((childItems l it.id).map (buildNode l f)))
      have h2 := hperm.mem_iff.mp h
      rw [allNodesF_eq_flatMap, List.mem_flatMap] at h2
      obtain ⟨m, hm, hnm⟩ := h2
      obtain ⟨c, _, rfl⟩ := List.mem_map.mp hm
      exact ih c n hnm

/-- Class selection of a built sibling list projects to the input-order
class of the corresponding child records. -/
theorem filter_children_eq (l : List Item) (g : Nat) (pid : Nat) (k : Int) :
    (((sortBySeq ((childItems l pid).map (buildNode l g))).filter
        (fun c => c.item.sequence_order = k)).map HNode.item) =
      (childItems l pid).filter fun it => it.sequence_order = k := by
  rw [filter_sortBySeq_seq, List.filter_map]
  have hpred : ((fun c : HNode => decide (c.item.sequence_order = k)) ∘
      buildNode l g) = fun it : Item => decide (it.sequence_order = k) := by
    funext it
    simp [Function.comp]
  rw [hpred, List.map_map]
  have hid : (HNode.item ∘ buildNode l g) = id := by
    funext it
    simp [Function.comp]
  rw [hid, List.map_id]

/-- C3: in every forest built from duplicate-free records, the roots list
and every node's children list are sorted by ascending `sequence_order`
(hence adjacent siblings satisfy `children[i].sequence_order ≤
children[i+1].sequence_order`), and within every equal-`sequence_order`
class the records keep their relative input order (stability of the
sort). -/
theorem hierarchy_child_ordering (l : List Item) (hnd : (idsOf l).Nodup) :
    List.Sorted seqLE (buildHierarchy l) ∧
    (∀ k : Int, (((buildHierarchy l).filter fun n =>
        n.item.sequence_order = k).map HNode.item) =
      (rootItems l).filter fun it => it.sequence_order = k) ∧
    ∀ n ∈ allNodesF (buildHierarchy l),
      List.Sorted seqLE n.children ∧
      ∀ k : Int, ((n.children.filter fun c =>
          c.item.sequence_order = k).map HNode.item) =
        (childItems l n.item.id).filter fun it => it.sequence_order = k := by
  refine ⟨List.sorted_insertionSort seqLE _, ?_, ?_⟩
  · intro k
    rw [buildHierarchy, filter_sortBySeq_seq, List.filter_map]
    have hpred : ((fun c : HNode => decide (c.item.sequence_order = k)) ∘
        buildNode l l.length) =
        fun it : Item => decide (it.sequence_order = k) := by
      funext it
      simp [Function.comp]
    rw [hpred, List.map_map]
    have hid : (HNode.item ∘ buildNode l l.length) = id := by
      funext it
      simp [Function.comp]
    rw [hid, List.map_id]
  · intro n hn
    constructor
    · have hperm := allNodesF_perm (sortBySeq_perm
        ((rootItems l).map (buildNode l l.length)))
      have h2 := hperm.mem_iff.mp hn
      rw [allNodesF_eq_flatMap, List.mem_flatMap] at h2
      obtain ⟨m, hm, hnm⟩ := h2
      obtain ⟨r, _, rfl⟩ := List.mem_map.mp hm
      exact sorted_children_buildNode l l.length r n hnm
    · intro k
      obtain ⟨hmem, g, heq⟩ := shape_ge_one l hnd n hn
      have hch : n.children =
          sortBySeq ((childItems l n.item.id).map (buildNode l g)) := by
        conv_lhs => rw [heq]
        rw [buildNode]
        rfl
      rw [hch]
      exact filter_children_eq l g n.item.id k

theorem hierarchy_child_ordering_witness :
    List.Sorted seqLE (buildHierarchy [plainItem 1 none 2, plainItem 2 none 1,
        plainItem 3 (some 1) 5, plainItem 4 (some 1) 5]) ∧
    (∀ k : Int, (((buildHierarchy [plainItem 1 none 2, plainItem 2 none 1,
        plainItem 3 (some 1) 5, plainItem 4 (some 1) 5]).filter fun n =>
        n.item.sequence_order = k).map HNode.item) =
      (rootItems [plainItem 1 none 2, plainItem 2 none 1,
        plainItem 3 (some 1) 5, plainItem 4 (some 1) 5]).filter fun it =>
        it.sequence_order = k) ∧
    ∀ n ∈ allNodesF (buildHierarchy [plainItem 1 none 2, plainItem 2 none 1,
        plainItem 3 (some 1) 5, plainItem 4 (some 1) 5]),
      List.Sorted seqLE n.children ∧
      ∀ k : Int, ((n.children.filter fun c =>
          c.item.sequence_order = k).map HNode.item) =
        (childItems [plainItem 1 none 2, plainItem 2 none 1,
          plainItem 3 (some 1) 5, plainItem 4 (some 1) 5] n.item.id).filter
          fun it => it.sequence_order = k :=
  hierarchy_child_ordering [plainItem 1 none 2, plainItem 2 none 1,
    plainItem 3 (some 1) 5, plainItem 4 (some 1) 5] (by decide)

/-- Climbing one more step from a child record reaches its parent record
(with duplicate-free ids, the lookup of the parent id is exact). -/
theorem pIter_succ_of_child (l : List Item) (hnd : (idsOf l).Nodup)
    (it c x : Item) (hit : it ∈ l) (hc : c ∈ childItems l it.id)
    (k : Nat) (hk : pIter l k x = some c) :
    pIter l (k + 1) x = some it := by
  rw [pIter, hk]
  show pStep l c = some it
  unfold pStep
  rw [(mem_childItems.mp hc).2]
  exact findItem_self l hnd it hit

/-- Any record whose chain reaches `y` in `k ≤ f` steps appears in the
subtree built at `y` with fuel `f`. -/
theorem mem_subtree_of_pIter (l : List Item) :
    ∀ k f x y, k ≤ f → x ∈ l → pIter l k x = some y →
      ∃ n ∈ allNodesN (buildNode l f y), n.item = x := by
  intro k
  induction k with
  | zero =>
    intro f x y _ hx hp
    rw [pIter] at hp
    injection hp with hp
    exact ⟨buildNode l f x, hp ▸ self_mem_allNodesN _, buildNode_item _ _ _⟩
  | succ k ih =>
    intro f x y hkf hx hp
    rw [pIter] at hp
    cases hc : pIter l k x with
    | none => rw [hc] at hp; exact absurd hp (by simp)
    | some c =>
      rw [hc] at hp
      have hp2 : pStep l c = some y := hp
      have hcl : c ∈ l := pIter_mem l k x c hx hc
      unfold pStep at hp2
      cases hpar : parentOf l c with
      | none =>
        rw [hpar] at hp2
        have hp3 : (none : Option Item) = some y := hp2
        exact absurd hp3 (by simp)
      | some p =>
        rw [hpar] at hp2
        have hp3 : findItem l p = some y := hp2
        have hy := mem_of_findItem l p y hp3
        have hcchild : c ∈ childItems l y.id :=
          mem_childItems.mpr ⟨hcl, by rw [hpar, hy.2]⟩
        obtain ⟨f', rfl⟩ : ∃ f', f = f' + 1 := ⟨f - 1, by omega⟩
        obtain ⟨n, hn, hni⟩ := ih f' x c (by omega) hx hc
        refine ⟨n, ?_, hni⟩
        rw [buildNode, allNodesN_node]
        refine List.mem_cons_of_mem _ ?_
        have hperm := allNodesF_perm (sortBySeq_perm
          ((childItems l y.id).map (buildNode l f')))
        rw [hperm.mem_iff, allNodesF_eq_flatMap, List.mem_flatMap]
        exact ⟨buildNode l f' c, List.mem_map_of_mem _ hcchild, hn⟩

/-- A rooted record's chain ends at a terminal record. -/
theorem rooted_terminal (l : List Item) (x : Item) (hx : Rooted l x) :
    ∃ k r, pIter l k x = some r ∧ pStep l r = none := by
  have hex : ∃ m, pIter l m x = none := hx
  have hd : pIter l (Nat.find hex) x = none := Nat.find_spec hex
  have hd1 : Nat.find hex ≠ 0 := by
    intro h
    rw [h, pIter] at hd
    exact absurd hd (by simp)
  cases hr : pIter l (Nat.find hex - 1) x with
  | none => exact absurd hr (Nat.find_min hex (by omega))
  | some r =>
    refine ⟨Nat.find hex - 1, r, hr, ?_⟩
    have h2 : pIter l ((Nat.find hex - 1) + 1) x = none := by
      rw [show (Nat.find hex - 1) + 1 = Nat.find hex from by omega]
      exact hd
    rw [pIter, hr] at h2
    exact h2

/-- Every rooted record of a duplicate-free input appears among the nodes
of `buildHierarchy`. -/
theorem mem_forest (l : List Item) (hnd : (idsOf l).Nodup) (x : Item)
    (hx : x ∈ l) (hr : Rooted l x) :
    ∃ n ∈ allNodesF (buildHierarchy l), n.item = x := by
  obtain ⟨k, r, hk, hterm⟩ := rooted_terminal l x hr
  have hrl : r ∈ l := pIter_mem l k x r hx hk
  have hroot : r ∈ rootItems l :=
    mem_rootItems.mpr ⟨hrl, (pStep_eq_none_iff l r).mp hterm⟩
  have hbound := chain_bound l x r k hx hterm hk
  obtain ⟨n, hn, hni⟩ := mem_subtree_of_pIter l k l.length x r (by omega) hx hk
  refine ⟨n, ?_, hni⟩
  have hperm := allNodesF_perm (sortBySeq_perm
    ((rootItems l).map (buildNode l l.length)))
  rw [buildHierarchy, hperm.mem_iff, allNodesF_eq_flatMap, List.mem_flatMap]
  exact ⟨buildNode l l.length r, List.mem_map_of_mem _ hroot, hn⟩

/-- Two chains from one record that land on two distinct siblings would
revisit the common parent, so (for rooted records) they coincide. -/
theorem sibling_subtrees_disjoint (l : List Item) (hnd : (idsOf l).Nodup)
    (hall : ∀ x ∈ l, Rooted l x) (it : Item) (hit : it ∈ l) (f : Nat)
    (c₁ c₂ : Item) (hc₁ : c₁ ∈ childItems l it.id)
    (hc₂ : c₂ ∈ childItems l it.id) (hne : c₁ ≠ c₂) :
    List.Disjoint ((allNodesN (buildNode l f c₁)).map HNode.item)
      ((allNodesN (buildNode l f c₂)).map HNode.item) := by
  intro a ha₁ ha₂
  obtain ⟨n₁, hn₁, hi₁⟩ := List.mem_map.mp ha₁
  obtain ⟨n₂, hn₂, hi₂⟩ := List.mem_map.mp ha₂
  obtain ⟨k₁, hk₁f, hm₁, hp₁, -⟩ := desc_buildNode l hnd f c₁ n₁
    (mem_childItems.mp hc₁).1 hn₁
  obtain ⟨k₂, hk₂f, hm₂, hp₂, -⟩ := desc_buildNode l hnd f c₂ n₂
    (mem_childItems.mp hc₂).1 hn₂
  rw [hi₁] at hp₁ hm₁
  rw [hi₂] at hp₂ hm₂
  have hs₁ := pIter_succ_of_child l hnd it c₁ a hit hc₁ k₁ hp₁
  have hs₂ := pIter_succ_of_child l hnd it c₂ a hit hc₂ k₂ hp₂
  have hkne : k₁ ≠ k₂ := by
    intro h
    rw [h, hp₂] at hp₁
    injection hp₁ with h2
    exact hne h2.symm
  obtain ⟨m, hm⟩ := hall a hm₁
  rcases Nat.lt_or_ge k₁ k₂ with hlt | hge
  · exact revisit_no_termination l a it (by omega) hs₁ hs₂ m hm
  · exact revisit_no_termination l a it (by omega : k₂ + 1 < k₁ + 1) hs₂ hs₁ m hm

/-- Subtrees of two distinct roots are disjoint. -/
theorem root_subtrees_disjoint (l : List Item) (hnd : (idsOf l).Nodup)
    (f : Nat) (r₁ r₂ : Item) (hr₁ : r₁ ∈ rootItems l) (hr₂ : r₂ ∈ rootItems l)
    (hne : r₁ ≠ r₂) :
    List.Disjoint ((allNodesN (buildNode l f r₁)).map HNode.item)
      ((allNodesN (buildNode l f r₂)).map HNode.item) := by
  intro a ha₁ ha₂
  obtain ⟨n₁, hn₁, hi₁⟩ := List.mem_map.mp ha₁
  obtain ⟨n₂, hn₂, hi₂⟩ := List.mem_map.mp ha₂
  obtain ⟨k₁, hk₁f, hm₁, hp₁, -⟩ := desc_buildNode l hnd f r₁ n₁
    (mem_rootItems.mp hr₁).1 hn₁
  obtain ⟨k₂, hk₂f, hm₂, hp₂, -⟩ := desc_buildNode l hnd f r₂ n₂
    (mem_rootItems.mp hr₂).1 hn₂
  rw [hi₁] at hp₁
  rw [hi₂] at hp₂
  have hkne : k₁ ≠ k₂ := by
    intro h
    rw [h, hp₂] at hp₁
    injection hp₁ with h2
    exact hne h2.symm
  have haux : ∀ i j : Nat, i < j → pIter l i a = some r₁ ∨ pIter l i a = some r₂ →
      pIter l j a = some r₁ ∨ pIter l j a = some r₂ → False := by
    intro i j hij hi hj
    have hnone : pIter l (i + 1) a = none := by
      rcases hi with hi | hi
      · rw [pIter, hi]
        exact (pStep_eq_none_iff l r₁).mpr (mem_rootItems.mp hr₁).2
      · rw [pIter, hi]
        exact (pStep_eq_none_iff l r₂).mpr (mem_rootItems.mp hr₂).2
    have := pIter_none_mono l a (by omega : i + 1 ≤ j) hnone
    rcases hj with hj | hj <;> rw [hj] at this <;> exact absurd this (by simp)
  rcases Nat.lt_or_ge k₁ k₂ with hlt | hge
  · exact haux k₁ k₂ hlt (Or.inl hp₁) (Or.inr hp₂)
  · exact haux k₂ k₁ (by omega) (Or.inr hp₂) (Or.inl hp₁)

/-- No record appears twice in a built subtree (duplicate-free, rooted
input). -/
theorem nodup_subtree (l : List Item) (hnd : (idsOf l).Nodup)
    (hall : ∀ x ∈ l, Rooted l x) :
    ∀ f it, it ∈ l → ((allNodesN (buildNode l f it)).map HNode.item).Nodup := by
  intro f
  induction f with
  | zero =>
    intro it hit
    rw [buildNode, allNodesN_node]
    simp
  | succ f ih =>
    intro it hit
    rw [buildNode, allNodesN_node, List.map_cons, List.nodup_cons]
    constructor
    · intro hmem
      obtain ⟨n, hn, hni⟩ := List.mem_map.mp hmem
      have hperm := allNodesF_perm (sortBySeq_perm
        ((childItems l it.id).map (buildNode l f)))
      have h2 := hperm.mem_iff.mp hn
      rw [allNodesF_eq_flatMap, List.mem_flatMap] at h2
      obtain ⟨m, hm, hnm⟩ := h2
      obtain ⟨c, hc, rfl⟩ := List.mem_map.mp hm
      obtain ⟨k, -, hml, hp, -⟩ := desc_buildNode l hnd f c n
        (mem_childItems.mp hc).1 hnm
      rw [hni] at hp
      have hs := pIter_succ_of_child l hnd it c it hit hc k hp
      obtain ⟨m', hm'⟩ := hall it hit
      exact cycle_no_termination l it (k + 1) (by omega) hs m' hm'
    · have hperm := (allNodesF_perm (sortBySeq_perm
        ((childItems l it.id).map (buildNode l f)))).map HNode.item
      rw [List.Perm.nodup_iff hperm, allNodesF_eq_flatMap, List.map_flatMap,
        List.flatMap_map, List.nodup_flatMap]
      refine ⟨fun c hc => ih c (mem_childItems.mp hc).1, ?_⟩
      have hcnd : (childItems l it.id).Nodup :=
        (List.Nodup.of_map Item.id hnd).filter _
      exact hcnd.imp_of_mem fun h₁ h₂ hne =>
        sibling_subtrees_disjoint l hnd hall it hit f _ _ h₁ h₂ hne

/-- No record appears twice among the nodes of `buildHierarchy`. -/
theorem nodup_forest (l : List Item) (hnd : (idsOf l).Nodup)
    (hall : ∀ x ∈ l, Rooted l x) :
    ((allNodesF (buildHierarchy l)).map HNode.item).Nodup := by
  have hperm := (allNodesF_perm (sortBySeq_perm
    ((rootItems l).map (buildNode l l.length)))).map HNode.item
  rw [buildHierarchy, List.Perm.nodup_iff hperm, allNodesF_eq_flatMap,
    List.map_flatMap, List.flatMap_map, List.nodup_flatMap]
  refine ⟨fun r hr => nodup_subtree l hnd hall l.length r
    (mem_rootItems.mp hr).1, ?_⟩
  have hrnd : (rootItems l).Nodup := (List.Nodup.of_map Item.id hnd).filter _
  exact hrnd.imp_of_mem fun h₁ h₂ hne =>
    root_subtrees_disjoint l hnd l.length _ _ h₁ h₂ hne

/-- C4 (amended): for every flat input whose ids are pairwise distinct and
whose resolved-parent chains all terminate (no cycle among `parent_id`
links), the multiset of records reachable from the roots of
`buildHierarchy` is exactly the input — no record dropped, none duplicated
— and in particular the reachable node count equals the input length. -/
theorem build_completeness (l : List Item) (hnd : (idsOf l).Nodup)
    (hall : ∀ x ∈ l, Rooted l x) :
    ((allNodesF (buildHierarchy l)).map HNode.item).Perm l ∧
      countF (buildHierarchy l) = l.length := by
  have hnodup := nodup_forest l hnd hall
  have hlnd : l.Nodup := List.Nodup.of_map Item.id hnd
  have hperm : ((allNodesF (buildHierarchy l)).map HNode.item).Perm l := by
    rw [List.perm_ext_iff_of_nodup hnodup hlnd]
    intro a
    constructor
    · intro ha
      obtain ⟨n, hn, hni⟩ := List.mem_map.mp ha
      exact hni ▸ (shape_ge_one l hnd n hn).1
    · intro ha
      obtain ⟨n, hn, hni⟩ := mem_forest l hnd a ha (hall a ha)
      exact List.mem_map.mpr ⟨n, hn, hni⟩
  refine ⟨hperm, ?_⟩
  have hlen := hperm.length_eq
  rw [List.length_map] at hlen
  exact hlen

/-- C4 counterexample to the claim as stated: the single self-parenting
record `{id 1, parent_id 1}` has pairwise-distinct ids, yet the forest
returned by `buildHierarchy` reaches 0 nodes, not 1 — the record is linked
below itself and never below a root. -/
theorem build_completeness_counterexample :
    (idsOf [plainItem 1 (some 1) 0]).Nodup ∧
      ([plainItem 1 (some 1) 0] : List Item).length = 1 ∧
      countF (buildHierarchy [plainItem 1 (some 1) 0]) = 0 := by
  refine ⟨by decide, rfl, by decide⟩

theorem build_completeness_witness :
    ((allNodesF (buildHierarchy [plainItem 1 none 1, plainItem 2 (some 1) 1,
        plainItem 3 (some 2) 1])).map HNode.item).Perm
      [plainItem 1 none 1, plainItem 2 (some 1) 1, plainItem 3 (some 2) 1] ∧
      countF (buildHierarchy [plainItem 1 none 1, plainItem 2 (some 1) 1,
        plainItem 3 (some 2) 1]) =
        ([plainItem 1 none 1, plainItem 2 (some 1) 1,
          plainItem 3 (some 2) 1] : List Item).length :=
  build_completeness
    [plainItem 1 none 1, plainItem 2 (some 1) 1, plainItem 3 (some 2) 1]
    (by decide)
    (by
      intro x hx
      rw [List.mem_cons, List.mem_cons, List.mem_cons] at hx
      rcases hx with rfl | rfl | rfl | hx
      · exact ⟨1, by decide⟩
      · exact ⟨2, by decide⟩
      · exact ⟨3, by decide⟩
      · cases hx)

/-- Inline citation record, from the `Reference` interface of
`BuildingCodeViewer.tsx`.  The provenance fields (`page_number`,
`font_family`, `bbox`) are opaque to the logic and omitted;
`target_content_id` and `hyperlink_target` can be absent (or, for the
number, zero) in the delivered payloads, which is exactly what the
truthiness tests of the source are for. -/
structure Reference where
  id : Nat
  reference_text : List Char
  reference_type : List Char
  target_content_id : Option Nat
  target_reference_code : Option (List Char)
  hyperlink_target : Option (List Char)
  reference_position : Int
deriving DecidableEq

/-- Output segment of `highlightReferences`: plain text or a clickable
reference span carrying the matched slice of the original text. -/
inductive RefSeg where
  | text (s : List Char)
  | ref (r : Reference) (s : List Char)
deriving DecidableEq

/-- Comparison of the sort `[...references].sort((a, b) =>
a.reference_position - b.reference_position)`. -/
def posLE (a b : Reference) : Prop :=
  a.reference_position ≤ b.reference_position

instance : DecidableRel posLE := fun a b =>
  inferInstanceAs (Decidable (a.reference_position ≤ b.reference_position))

/-- One step of the `forEach` of `highlightReferences`: find the reference
text case-insensitively at or after the cursor; when found, emit the gap
(when non-empty) and the reference span and advance the cursor past the
match; when absent, leave the state untouched (the reference is skipped). -/
def processRef (text : List Char) (st : Nat × List RefSeg) (r : Reference) :
    Nat × List RefSeg :=
  match idxOfFrom (lowerStr text) (lowerStr r.reference_text) st.1 with
  | none => st
  | some i =>
      (i + r.reference_text.length,
        st.2 ++
          (if st.1 < i then
            [RefSeg.text ((text.drop st.1).take (i - st.1))]
          else []) ++
          [RefSeg.ref r ((text.drop i).take r.reference_text.length)])

/-- Model of `highlightReferences` (`BuildingCodeViewer.tsx`): empty text or
no references returns the raw text; otherwise the references are processed
in ascending `reference_position` order (stable sort) with a monotone scan
cursor, and the tail of the text after the last match is appended. -/
def highlightReferences (text : List Char) (references : List Reference) :
    List RefSeg :=
  if text.isEmpty || references.isEmpty then [RefSeg.text text]
  else
    let st := (references.insertionSort posLE).foldl (processRef text) (0, [])
    st.2 ++ (if st.1 < text.length then [RefSeg.text (text.drop st.1)] else [])

/-- Sample reference of the spec's reference-resolution scenario. -/
def sampleRef : Reference :=
  ⟨1, "Article 9.10.14.2".toList, "article".toList, some 480, none, none, 0⟩

theorem scanIdx_spec (pat : List Char) :
    ∀ hay i, scanIdx pat hay = some i →
      pat.isPrefixOf (hay.drop i) = true ∧
        ∀ j, j < i → pat.isPrefixOf (hay.drop j) = false := by
  intro hay
  induction hay with
  | nil =>
    intro i h
    rw [scanIdx] at h
    by_cases hp : pat.isEmpty
    · rw [if_pos hp] at h
      injection h with h
      subst h
      refine ⟨?_, by omega⟩
      rw [List.isEmpty_iff] at hp
      subst hp
      rfl
    · rw [if_neg hp] at h
      exact absurd h (by simp)
  | cons c rest ih =>
    intro i h
    rw [scanIdx] at h
    by_cases hp : pat.isPrefixOf (c :: rest)
    · rw [if_pos hp] at h
      injection h with h
      subst h
      exact ⟨by simpa using hp, by omega⟩
    · rw [if_neg hp] at h
      cases hs : scanIdx pat rest with
      | none => rw [hs] at h; exact absurd h (by simp)
      | some i' =>
        rw [hs] at h
        have h3 : some (i' + 1) = some i := h
        injection h3 with h3
        obtain ⟨h1, h2⟩ := ih i' hs
        subst h3
        refine ⟨by simpa using h1, ?_⟩
        intro j hj
        cases j with
        | zero =>
          simp only [List.drop_zero]
          exact Bool.eq_false_iff.mpr hp
        | succ j' =>
          have : (c :: rest).drop (j' + 1) = rest.drop j' := by simp
          rw [this]
          exact h2 j' (by omega)

/-- C6: the scan of `highlightReferences` finds each reference at the first
case-insensitive occurrence at or after the end of the previous match; a
reference with no such occurrence is skipped, leaving the cursor and the
emitted segments untouched and aborting nothing; and on the node text
`"See Article 9.10.14.2 for details"` with the single reference
`"Article 9.10.14.2"` the emitted segments are
`[text "See "], [reference "Article 9.10.14.2"], [text " for details"]`. -/
theorem reference_segmentation :
    (∀ hay pat start i, idxOfFrom hay pat start = some i →
      start ≤ i ∧ pat.isPrefixOf (hay.drop i) = true ∧
        ∀ j, start ≤ j → j < i → pat.isPrefixOf (hay.drop j) = false) ∧
    (∀ text (st : Nat × List RefSeg) (r : Reference),
      idxOfFrom (lowerStr text) (lowerStr r.reference_text) st.1 = none →
      processRef text st r = st) ∧
    (∀ text (st : Nat × List RefSeg) (r : Reference) (rest : List Reference),
      idxOfFrom (lowerStr text) (lowerStr r.reference_text) st.1 = none →
      (r :: rest).foldl (processRef text) st =
        rest.foldl (processRef text) st) ∧
    highlightReferences ("See Article 9.10.14.2 for details".toList)
        [sampleRef] =
      [RefSeg.text ("See ".toList),
        RefSeg.ref sampleRef ("Article 9.10.14.2".toList),
        RefSeg.text (" for details".toList)] := by
  have hskip : ∀ text (st : Nat × List RefSeg) (r : Reference),
      idxOfFrom (lowerStr text) (lowerStr r.reference_text) st.1 = none →
      processRef text st r = st := by
    intro text st r h
    rw [processRef, h]
  refine ⟨?_, hskip, ?_, ?_⟩
  · intro hay pat start i h
    rw [idxOfFrom] at h
    cases hs : scanIdx pat (hay.drop start) with
    | none => rw [hs] at h; exact absurd h (by simp)
    | some i' =>
      rw [hs] at h
      have h3 : some (i' + start) = some i := h
      injection h3 with h3
      obtain ⟨h1, h2⟩ := scanIdx_spec pat (hay.drop start) i' hs
      subst h3
      refine ⟨by omega, ?_, ?_⟩
      · rw [List.drop_drop] at h1
        rw [show i' + start = start + i' from by omega]
        exact h1
      · intro j hj1 hj2
        have h4 := h2 (j - start) (by omega)
        rw [List.drop_drop] at h4
        rw [show start + (j - start) = j from by omega] at h4
        exact h4
  · intro text st r rest h
    rw [List.foldl_cons, hskip text st r h]
  · rfl

theorem reference_segmentation_witness :
    (2 ≤ 4 ∧ ("b".toList).isPrefixOf (("abcabc".toList).drop 4) = true ∧
      ∀ j, 2 ≤ j → j < 4 →
        ("b".toList).isPrefixOf (("abcabc".toList).drop j) = false) ∧
    processRef ("abc".toList) (0, [])
        ⟨2, "zzz".toList, [], none, none, none, 0⟩ =
      (0, []) :=
  ⟨reference_segmentation.1 ("abcabc".toList) ("b".toList) 2 4 (by decide),
   reference_segmentation.2.1 ("abc".toList) (0, [])
     ⟨2, "zzz".toList, [], none, none, none, 0⟩ (by decide)⟩

/-- JavaScript truthiness of a nullable number: `null`, `undefined` and `0`
are falsy. -/
def truthyNum : Option Nat → Bool
  | none => false
  | some n => n != 0

/-- JavaScript truthiness of a nullable string: `null`, `undefined` and the
empty string are falsy. -/
def truthyStr : Option (List Char) → Bool
  | none => false
  | some s => !s.isEmpty

/-- The anchor prefix of the pattern `/#content-(\d+)/`. -/
def anchorPat : List Char := "#content-".toList

/-- Value of a non-empty digit run, as `parseInt` reads it. -/
def digitsVal (ds : List Char) : Nat :=
  ds.foldl (fun acc c => acc * 10 + (c.toNat - ('0').toNat)) 0

/-- First match of the regular expression `/#content-(\d+)/` in a string:
the earliest position where the literal `#content-` is followed by at least
one digit; the captured group is the maximal digit run, and its integer
value is returned. -/
def extractContentId : List Char → Option Nat
  | [] => none
  | c :: rest =>
      if anchorPat.isPrefixOf (c :: rest) &&
          !(((c :: rest).drop anchorPat.length).takeWhile Char.isDigit).isEmpty
      then some (digitsVal
        (((c :: rest).drop anchorPat.length).takeWhile Char.isDigit))
      else extractContentId rest

/-- Model of `handleReferenceClick` (`BuildingCodeViewer.tsx`): the resolved
navigation target of a clicked reference, `none` meaning activation is a
no-op.  The decision chain follows the source's truthiness tests:
`if (reference.target_content_id) … else if (reference.hyperlink_target)`
with the regex match `/#content-(\d+)/` and `parseInt` on the capture. -/
def handleReferenceClick (r : Reference) : Option Nat :=
  if truthyNum r.target_content_id then r.target_content_id
  else if truthyStr r.hyperlink_target then
    extractContentId (r.hyperlink_target.getD [])
  else none

/-- C7 (amended): a clicked reference navigates to `target_content_id` when
that field is present and non-zero (JavaScript truthiness); otherwise, when
`hyperlink_target` is a non-empty string whose first `#content-<digits>`
match parses to `n`, it navigates to `n` (so `"#content-480"` resolves to
480); otherwise activation is a no-op. -/
theorem reference_click_resolution :
    (∀ (r : Reference) (t : Nat), r.target_content_id = some t → t ≠ 0 →
      handleReferenceClick r = some t) ∧
    (∀ r : Reference, truthyNum r.target_content_id = false →
      ∀ s, r.hyperlink_target = some s →
      ∀ n, extractContentId s = some n → handleReferenceClick r = some n) ∧
    (∀ r : Reference, truthyNum r.target_content_id = false →
      truthyStr r.hyperlink_target = false → handleReferenceClick r = none) ∧
    (∀ r : Reference, truthyNum r.target_content_id = false →
      ∀ s, r.hyperlink_target = some s → extractContentId s = none →
      handleReferenceClick r = none) ∧
    extractContentId ("#content-480".toList) = some 480 := by
  refine ⟨?_, ?_, ?_, ?_, by decide⟩
  · intro r t ht htz
    rw [handleReferenceClick, if_pos (by rw [truthyNum.eq_def, ht]; simpa using htz)]
    exact ht
  · intro r htn s hs n hn
    rw [handleReferenceClick, if_neg (by simp [htn])]
    by_cases he : s.isEmpty
    · rw [List.isEmpty_iff] at he
      subst he
      rw [extractContentId] at hn
      exact absurd hn (by simp)
    · rw [if_pos (by rw [truthyStr.eq_def, hs]; simpa using he), hs]
      exact hn
  · intro r htn hts
    rw [handleReferenceClick, if_neg (by simp [htn]), if_neg (by simp [hts])]
  · intro r htn s hs hn
    rw [handleReferenceClick, if_neg (by simp [htn])]
    by_cases hts : truthyStr r.hyperlink_target
    · rw [if_pos hts, hs]
      exact hn
    · rw [if_neg hts]

theorem reference_click_resolution_witness :
    handleReferenceClick ⟨1, [], [], some 480, none, none, 0⟩ = some 480 ∧
    handleReferenceClick
        ⟨2, [], [], none, none, some ("#content-480".toList), 0⟩ =
      some 480 :=
  ⟨reference_click_resolution.1 ⟨1, [], [], some 480, none, none, 0⟩ 480 rfl
      (by decide),
   reference_click_resolution.2.1
     ⟨2, [], [], none, none, some ("#content-480".toList), 0⟩ (by decide)
     ("#content-480".toList) rfl 480 (by decide)⟩

/-- C7 counterexample to the claim as stated: a reference whose
`target_content_id` is present but `0` does not navigate to `0` — the
truthiness test treats it as absent and the hyperlink fallback wins. -/
theorem reference_click_counterexample :
    (Reference.mk 7 [] [] (some 0) none (some ("#content-480".toList))
        0).target_content_id = some 0 ∧
    handleReferenceClick
        ⟨7, [], [], some 0, none, some ("#content-480".toList), 0⟩ =
      some 480 ∧
    handleReferenceClick
        ⟨7, [], [], some 0, none, some ("#content-480".toList), 0⟩ ≠
      some 0 := by
  refine ⟨rfl, by decide, by decide⟩

/-- Atom of the JavaScript regular expression fragment that
`highlightText`'s `new RegExp` interpolation can build from the terms
considered here: a literal character (matched case-insensitively under the
`i` flag). -/
inductive RAtom where
  | lit (c : Char)
deriving DecidableEq

/-- Piece of the pattern: an atom, or an atom under the `+` quantifier. -/
inductive RPiece where
  | once (a : RAtom)
  | plus (a : RAtom)
deriving DecidableEq

/-- Regex metacharacters.  Terms containing any of these (other than a
well-placed `+`) build patterns outside the fragment modelled here; a term
such as `"("` even makes the `RegExp` constructor throw. -/
def regexMeta : List Char := "()[]\x7b\x7d\\|.*?^$/".toList

/-- Parse of the pattern `new RegExp("(" + term + ")", "gi")` restricted to
the modelled fragment: plain characters become literal atoms and `+`
quantifies the preceding atom; any other metacharacter (or a dangling `+`)
is out of fragment and yields `none`. -/
def parseTermRegex : List Char → List RPiece → Option (List RPiece)
  | [], acc => some acc
  | c :: rest, acc =>
      if c = '+' then
        match acc.getLast? with
        | some (RPiece.once a) =>
            parseTermRegex rest (acc.dropLast ++ [RPiece.plus a])
        | _ => none
      else if c ∈ regexMeta then none
      else parseTermRegex rest (acc ++ [RPiece.once (RAtom.lit c)])

/-- Parse of a search term as the regex `highlightText` builds from it. -/
def parseTerm (term : List Char) : Option (List RPiece) :=
  parseTermRegex term []

/-- Case-insensitive atom match (`i` flag). -/
def matchAtom (a : RAtom) (c : Char) : Bool :=
  match a with
  | .lit d => c.toLower = d.toLower

/-- Backtracking matcher at one position: number of characters consumed by
the pattern, greedy for `+` (longest repetition first), or `none`.  The
fuel only bounds the recursion over pieces; every call supplies more fuel
than pieces, so it is never exhausted. -/
def matchPieces : Nat → List RPiece → List Char → Option Nat
  | 0, _, _ => none
  | _ + 1, [], _ => some 0
  | f + 1, RPiece.once a :: ps, s =>
      match s with
      | [] => none
      | c :: rest =>
          if matchAtom a c then (matchPieces f ps rest).map (· + 1) else none
  | f + 1, RPiece.plus a :: ps, s =>
      ((List.range ((s.takeWhile (matchAtom a)).length)).reverse.map
        (· + 1)).findSome? fun k => (matchPieces f ps (s.drop k)).map (· + k)

/-- Match the whole pattern at one position. -/
def matchRE (ps : List RPiece) (s : List Char) : Option Nat :=
  matchPieces (ps.length + 1) ps s

/-- Leftmost match: first position (with consumed length) at which the
pattern matches, as the JavaScript regex engine finds it. -/
def findMatchPos (ps : List RPiece) : List Char → Option (Nat × Nat)
  | [] => (matchRE ps []).map fun len => (0, len)
  | c :: rest =>
      match matchRE ps (c :: rest) with
      | some len => some (0, len)
      | none => (findMatchPos ps rest).map fun pr => (pr.1 + 1, pr.2)

/-- JavaScript `text.split(re)` with a single capturing group and the `g`
flag: alternating unmatched gaps and captured matches.  The fuel dominates
the text length; every modelled pattern consumes at least one character per
match, so the fuel is never exhausted on the inputs considered. -/
def splitCapture (ps : List RPiece) : Nat → List Char → List (List Char)
  | 0, s => [s]
  | f + 1, s =>
      match findMatchPos ps s with
      | none => [s]
      | some (i, len) =>
          s.take i :: (s.drop i).take len ::
            splitCapture ps f (s.drop (i + len))

/-- Output segment of `highlightText`: a plain slice or a `<mark>`ed
slice. -/
inductive TSeg where
  | text (s : List Char)
  | mark (s : List Char)
deriving DecidableEq

/-- Model of `highlightText` (`BuildingCodeViewer.tsx`): an empty term or
empty text returns the raw text; otherwise the text is split on
`new RegExp("(" + term + ")", "gi")` — the term interpolated UNESCAPED into
the pattern — and a part is tagged as a match exactly when it equals the
term case-insensitively.  `none` models a term outside the modelled regex
fragment (a term such as `"("` makes the `RegExp` constructor throw at
runtime). -/
def highlightTextJS (text hl : List Char) : Option (List TSeg) :=
  if hl.isEmpty || text.isEmpty then some [TSeg.text text]
  else
    (parseTerm hl).map fun ps =>
      (splitCapture ps (text.length + 1) text).map fun part =>
        if lowerStr part = lowerStr hl then TSeg.mark part else TSeg.text part

/-- C8 evidence: on text `"A+"` and term `"a+"` the term occurs literally
(case-insensitively) at position 0, yet the code emits no matched segment
at all — the interpolated regex `/(a+)/gi` matches only `"A"`, and `"A"`
fails the equality test against `"a+"` — whereas for a metacharacter-free
term the intended behavior is observed (`emphasize("The Building Code",
"building")` splits and marks `"Building"`). -/
theorem emphasize_regex_divergence :
    highlightTextJS ("A+".toList) ("a+".toList) =
      some [TSeg.text [], TSeg.text ("A".toList), TSeg.text ("+".toList)] ∧
    (∀ s, TSeg.mark s ∉
      [TSeg.text ([] : List Char), TSeg.text ("A".toList),
        TSeg.text ("+".toList)]) ∧
    highlightTextJS ("The Building Code".toList) ("building".toList) =
      some [TSeg.text ("The ".toList), TSeg.mark ("Building".toList),
        TSeg.text (" Code".toList)] := by
  refine ⟨by decide, ?_, by decide⟩
  intro s hs
  simp at hs
